import Mathlib

/-!
Verification of the task-scheduler library (schedulers for one-time,
fixed-interval, random-interval, cron-like and combined schedules, plus the
Job gating logic).

Modelling conventions, matching the repository's data model:
* Timestamps (`chrono::DateTime<Utc>`) are absolute instants at second
  resolution, embedded as `ℤ` (seconds since an arbitrary epoch) for the
  arithmetic schedulers, and as an explicit calendar record `CDateTime` for the
  cron scheduler, which only ever manipulates calendar fields.
* Durations (`std::time::Duration`) are whole seconds, embedded as `ℕ`.
* `IntervalSchedule::next_occurrence` converts the elapsed time and the
  interval to `f32` and divides them; that single-precision computation is
  embedded exactly (round-to-nearest-even, 24-bit significand) over `ℕ`,
  since for the positive in-range magnitudes that arise here IEEE-754 binary32
  arithmetic is exact rounding of the mathematical value (no overflow,
  subnormals or NaN can occur for quotients of positive second counts).
* `rand::Rng::random_range(min..=max)` is embedded by passing the sampled
  value explicitly; theorems quantify over every sample in `[min, max]`.
* A `Box<dyn Schedule>` component is embedded as its `next_occurrence`
  function `ℤ → Option ℤ`.
* Rust's `.unwrap()` on the `Option` results of chrono's field setters is
  embedded by an explicit `.err` (panic) outcome of the cron search, and the
  cron `loop` by fuel-indexed recursion.
-/

/-- Construction-time error taxonomy (`src/errors.rs`). -/
inductive SchedulerError where
  | InvalidConfiguration
  | TimeInPast
  | InvalidDuration
  | InvalidRepetition
  | InvalidDateTime
deriving DecidableEq, Repr

/-! ### IEEE-754 binary32 arithmetic on natural numbers

`IntervalSchedule::next_occurrence` computes
`(since_start.as_seconds_f32() / self.interval.as_secs() as f32) as u64`.
Both operands are whole-second counts; converting a natural number to `f32`
and dividing two `f32` values each round the exact value to the nearest
binary32 float (ties to even, 24-bit significand).  `nlog2` is a fuel-indexed
floor-log2, `rndDiv` rounds a natural-number quotient half-to-even, and
`f32divTrunc a b` is `⌊roundF32 (roundF32 a / roundF32 b)⌋`, i.e. the exact
value of the Rust expression above for positive `a`, `b`. -/

def nlog2 : ℕ → ℕ → ℕ
  | 0, _ => 0
  | fuel+1, n => if n < 2 then 0 else nlog2 fuel (n / 2) + 1

/-- Round `N / D` to the nearest integer, ties to even (`D > 0`). -/
def rndDiv (N D : ℕ) : ℕ :=
  if 2 * (N % D) < D then N / D
  else if D < 2 * (N % D) then N / D + 1
  else if N / D % 2 = 0 then N / D else N / D + 1

/-- Round a natural number to the nearest binary32 value (which is again a
natural number, since for `n ≥ 2^24` the rounded significand is scaled back by
the same power of two). -/
def roundF32Nat (n : ℕ) : ℕ :=
  if nlog2 64 n ≤ 23 then n
  else rndDiv n (2 ^ (nlog2 64 n - 23)) * 2 ^ (nlog2 64 n - 23)

/-- Floor of log2 of the rational `a / b` for `a, b ≥ 1`. -/
def flog2 (a b : ℕ) : ℤ :=
  if b * 2 ^ nlog2 64 a ≤ a * 2 ^ nlog2 64 b then (nlog2 64 a : ℤ) - nlog2 64 b
  else (nlog2 64 a : ℤ) - nlog2 64 b - 1

/-- Truncation (`as u64`) of the binary32 rounding of the exact quotient
`a / b`, for `a, b ≥ 1`: the significand is the half-to-even rounding of
`(a/b) · 2^(23-e)` where `e = ⌊log2 (a/b)⌋`, and the result is that
significand scaled by `2^(e-23)`, truncated toward zero. -/
def f32divTrunc (a b : ℕ) : ℕ :=
  if flog2 a b ≤ 23 then
    rndDiv (a * 2 ^ (23 - flog2 a b).toNat) b / 2 ^ (23 - flog2 a b).toNat
  else rndDiv a (b * 2 ^ (flog2 a b - 23).toNat) * 2 ^ (flog2 a b - 23).toNat

/-- Value of `(since_start.as_seconds_f32() / interval.as_secs() as f32) as u64`
with `since_start = elapsed` whole seconds.  Division by zero cannot arise
(the constructor rejects a zero interval); it is mapped to the `u64`
saturation value that `as u64` gives for `+∞`. -/
def intervals_passed (elapsed interval : ℕ) : ℕ :=
  if interval = 0 then 2 ^ 64 - 1
  else if elapsed = 0 then 0
  else f32divTrunc (roundF32Nat elapsed) (roundF32Nat interval)

/-! ### OneTimeSchedule (`src/schedulers/one_time.rs`) -/

/-- State of `OneTimeSchedule`. -/
structure OneTimeSchedule where
  time : ℤ
deriving DecidableEq, Repr

/-- `OneTimeSchedule::new(time)`; `now` is the construction-time clock
reading. -/
def OneTimeSchedule.new (now time : ℤ) : Except SchedulerError OneTimeSchedule :=
  if time ≤ now then .error .TimeInPast else .ok ⟨time⟩

/-- `OneTimeSchedule::next_occurrence`. -/
def OneTimeSchedule.next_occurrence (s : OneTimeSchedule) (after : ℤ) : Option ℤ :=
  if after < s.time then some s.time else none

/-! ### IntervalSchedule (`src/schedulers/interval.rs`) -/

/-- State of `IntervalSchedule`. -/
structure IntervalSchedule where
  interval : ℕ
  start_time : ℤ
  end_time : Option ℤ
deriving DecidableEq, Repr

/-- `IntervalSchedule::new(interval, start_time)`: rejects
`interval.as_secs() == 0`. -/
def IntervalSchedule.new (interval : ℕ) (start_time : ℤ) :
    Except SchedulerError IntervalSchedule :=
  if interval = 0 then .error .InvalidDuration
  else .ok ⟨interval, start_time, none⟩

/-- `IntervalSchedule::with_end_time`. -/
def IntervalSchedule.with_end_time (s : IntervalSchedule) (e : ℤ) : IntervalSchedule :=
  { s with end_time := some e }

/-- `IntervalSchedule::next_occurrence`: before the start the answer is the
start; otherwise the interval count comes from the `f32` division and the
count plus one is truncated to `u32` before multiplying the interval. -/
def IntervalSchedule.next_occurrence (s : IntervalSchedule) (after : ℤ) : Option ℤ :=
  if after < s.start_time then some s.start_time
  else
    let since_start := (after - s.start_time).toNat
    let k := intervals_passed since_start s.interval
    let next_time := s.start_time + (s.interval * ((k + 1) % 2 ^ 32) : ℕ)
    match s.end_time with
    | some e => if e < next_time then none else some next_time
    | none => some next_time

/-- Modelled from the spec (§4.3), for comparison with the source: the
interval count is the exact floor `⌊elapsed / interval⌋`, with no
floating-point rounding and no `u32` truncation. -/
def IntervalSchedule.spec_next_occurrence (s : IntervalSchedule) (after : ℤ) : Option ℤ :=
  if after < s.start_time then some s.start_time
  else
    let k := (after - s.start_time).toNat / s.interval
    let next_time := s.start_time + (s.interval * (k + 1) : ℕ)
    match s.end_time with
    | some e => if e < next_time then none else some next_time
    | none => some next_time

/-! ### RandomIntervalSchedule (`src/schedulers/random_interval.rs`) -/

/-- State of `RandomIntervalSchedule`. -/
structure RandomIntervalSchedule where
  min_interval : ℕ
  max_interval : ℕ
  last_time : Option ℤ
  end_time : Option ℤ
deriving DecidableEq, Repr

/-- `RandomIntervalSchedule::new`. -/
def RandomIntervalSchedule.new (min_interval max_interval : ℕ) :
    Except SchedulerError RandomIntervalSchedule :=
  if min_interval = 0 ∨ max_interval = 0 then .error .InvalidDuration
  else if max_interval < min_interval then .error .InvalidConfiguration
  else .ok ⟨min_interval, max_interval, none, none⟩

/-- `RandomIntervalSchedule::with_start_time`. -/
def RandomIntervalSchedule.with_start_time (s : RandomIntervalSchedule) (t : ℤ) :
    RandomIntervalSchedule :=
  { s with last_time := some t }

/-- `RandomIntervalSchedule::next_occurrence`, with `sample` the value drawn
by `generate_random_interval` (theorems restrict it to
`[min_interval, max_interval]`, the range of `random_range`). -/
def RandomIntervalSchedule.next_occurrence (s : RandomIntervalSchedule)
    (sample : ℕ) (after : ℤ) : Option ℤ :=
  let last_time := s.last_time.getD after
  let next_time := last_time + (sample : ℤ)
  match s.end_time with
  | some e => if e < next_time then none else some next_time
  | none => some next_time

/-! ### CombinedSchedule (`src/schedulers/combined.rs`) -/

/-- State of `CombinedSchedule`: each boxed component is embedded as its
`next_occurrence` function. -/
structure CombinedSchedule where
  schedules : List (ℤ → Option ℤ)

/-- `CombinedSchedule::next_occurrence`: the source's accumulator loop,
keeping the earliest non-`none` answer. -/
def CombinedSchedule.next_occurrence (c : CombinedSchedule) (after : ℤ) : Option ℤ :=
  c.schedules.foldl
    (fun earliest sched =>
      match sched after with
      | some next =>
        match earliest with
        | none => some next
        | some cur => if next < cur then some next else some cur
      | none => earliest)
    none

/-- Minimum of two optional timestamps, `none` acting as `+∞` (the spec's
description of schedule combination, §4.6). -/
def ominTime : Option ℤ → Option ℤ → Option ℤ
  | none, b => b
  | some x, none => some x
  | some x, some y => some (min x y)

/-- Modelled from the spec (§4.6): the combined answer is the `ominTime`-fold
of the individual answers. -/
def CombinedSchedule.spec_next_occurrence (c : CombinedSchedule) (after : ℤ) : Option ℤ :=
  (c.schedules.map (fun sched => sched after)).foldr ominTime none

/-! ### Calendar model (the chrono collaborator)

The cron scheduler manipulates a `DateTime<Utc>` only through its calendar
field accessors (`year`..`second`, `weekday`), the field setters
(`with_year`..`with_second`, which return `None` when the requested value
does not form a valid date-time), and the addition of whole-second
durations.  `CDateTime` embeds the proleptic Gregorian UTC calendar record;
`dayNumber` counts days from 0000-01-01, so `dtToSecs` is the instant as a
second count and agrees with chrono's instant ordering on valid records. -/

/-- A calendar date-time record (UTC, second resolution). -/
structure CDateTime where
  year : ℤ
  month : ℕ
  day : ℕ
  hour : ℕ
  minute : ℕ
  second : ℕ
deriving DecidableEq, Repr

/-- Proleptic Gregorian leap-year rule. -/
def isLeap (y : ℤ) : Bool :=
  y % 4 == 0 && (y % 100 != 0 || y % 400 == 0)

/-- Length of month `m` of year `y` (for `1 ≤ m ≤ 12`). -/
def daysInMonth (y : ℤ) (m : ℕ) : ℕ :=
  if m = 2 then (if isLeap y then 29 else 28)
  else if m = 4 ∨ m = 6 ∨ m = 9 ∨ m = 11 then 30
  else 31

/-- Days before month `m` in a non-leap year (`1 ≤ m ≤ 12`). -/
def monthDaysBefore (m : ℕ) : ℕ :=
  if m ≤ 1 then 0 else if m = 2 then 31 else if m = 3 then 59 else if m = 4 then 90
  else if m = 5 then 120 else if m = 6 then 151 else if m = 7 then 181
  else if m = 8 then 212 else if m = 9 then 243 else if m = 10 then 273
  else if m = 11 then 304 else 334

/-- Days from 0000-01-01 to the first day of year `y` (floor divisions count
the leap years in `[0, y)`). -/
def daysBeforeYear (y : ℤ) : ℤ :=
  365 * y + (y + 3) / 4 - (y + 99) / 100 + (y + 399) / 400

/-- Day count of the date `(y, m, d)` from 0000-01-01. -/
def dayNum (y : ℤ) (m d : ℕ) : ℤ :=
  daysBeforeYear y + monthDaysBefore m
    + (if 3 ≤ m ∧ isLeap y then 1 else 0) + (d : ℤ) - 1

/-- Day count of a date from 0000-01-01. -/
def CDateTime.dayNumber (t : CDateTime) : ℤ :=
  dayNum t.year t.month t.day

/-- Seconds within the day. -/
def CDateTime.timeOfDay (t : CDateTime) : ℤ :=
  (t.hour : ℤ) * 3600 + t.minute * 60 + t.second

/-- The instant as a second count; chrono's `DateTime` ordering on valid
records is the order of this value. -/
def CDateTime.toSecs (t : CDateTime) : ℤ :=
  t.dayNumber * 86400 + t.timeOfDay

/-- Chrono's `Datelike::weekday().num_days_from_monday()` (0 = Monday).
1970-01-01 (day number 719528) was a Thursday (= 3). -/
def CDateTime.weekday (t : CDateTime) : ℕ :=
  ((t.dayNumber + 5) % 7).toNat

/-- The record denotes an actual calendar date-time. -/
def CDateTime.Valid (t : CDateTime) : Prop :=
  1 ≤ t.month ∧ t.month ≤ 12 ∧ 1 ≤ t.day ∧ t.day ≤ daysInMonth t.year t.month
    ∧ t.hour < 24 ∧ t.minute < 60 ∧ t.second < 60

instance (t : CDateTime) : Decidable t.Valid := by
  unfold CDateTime.Valid; infer_instance

/-- Chrono `with_year`: `None` when the month/day do not exist in year `y`
(e.g. Feb 29 moved to a non-leap year). -/
def CDateTime.with_year (t : CDateTime) (y : ℤ) : Option CDateTime :=
  if 1 ≤ t.month ∧ t.month ≤ 12 ∧ 1 ≤ t.day ∧ t.day ≤ daysInMonth y t.month
  then some { t with year := y } else none

/-- Chrono `with_month`: `None` for an out-of-range month or when the current
day does not exist in the new month. -/
def CDateTime.with_month (t : CDateTime) (m : ℕ) : Option CDateTime :=
  if 1 ≤ m ∧ m ≤ 12 ∧ 1 ≤ t.day ∧ t.day ≤ daysInMonth t.year m
  then some { t with month := m } else none

/-- Chrono `with_day`: `None` for a day outside the current month. -/
def CDateTime.with_day (t : CDateTime) (d : ℕ) : Option CDateTime :=
  if 1 ≤ d ∧ d ≤ daysInMonth t.year t.month
  then some { t with day := d } else none

/-- Chrono `with_hour`. -/
def CDateTime.with_hour (t : CDateTime) (h : ℕ) : Option CDateTime :=
  if h < 24 then some { t with hour := h } else none

/-- Chrono `with_minute`. -/
def CDateTime.with_minute (t : CDateTime) (mi : ℕ) : Option CDateTime :=
  if mi < 60 then some { t with minute := mi } else none

/-- Chrono `with_second`. -/
def CDateTime.with_second (t : CDateTime) (s : ℕ) : Option CDateTime :=
  if s < 60 then some { t with second := s } else none

/-- Advance a date by one calendar day (instant addition of 86400 s to a
midnight record). -/
def CDateTime.addDay (t : CDateTime) : CDateTime :=
  if t.day + 1 ≤ daysInMonth t.year t.month then { t with day := t.day + 1 }
  else if t.month + 1 ≤ 12 then { t with month := t.month + 1, day := 1 }
  else { t with year := t.year + 1, month := 1, day := 1 }

/-- Instant addition of one second (`next += Duration::from_secs(1)`). -/
def CDateTime.succSec (t : CDateTime) : CDateTime :=
  if t.second + 1 < 60 then { t with second := t.second + 1 }
  else if t.minute + 1 < 60 then { t with minute := t.minute + 1, second := 0 }
  else if t.hour + 1 < 24 then { t with hour := t.hour + 1, minute := 0, second := 0 }
  else CDateTime.addDay { t with hour := 0, minute := 0, second := 0 }

/-! ### CronSchedule (`src/schedulers/cron.rs`) -/

/-- State of `CronSchedule`: five optional field constraints. -/
structure CronSchedule where
  minute : Option ℕ := none
  hour : Option ℕ := none
  day : Option ℕ := none
  month : Option ℕ := none
  weekday : Option ℕ := none
deriving DecidableEq, Repr

/-- `CronSchedule::new()`. -/
def CronSchedule.new : CronSchedule := {}

/-- `CronSchedule::minute` setter. -/
def CronSchedule.set_minute (c : CronSchedule) (m : ℕ) : Except SchedulerError CronSchedule :=
  if 60 ≤ m then .error .InvalidConfiguration else .ok { c with minute := some m }

/-- `CronSchedule::hour` setter. -/
def CronSchedule.set_hour (c : CronSchedule) (h : ℕ) : Except SchedulerError CronSchedule :=
  if 24 ≤ h then .error .InvalidConfiguration else .ok { c with hour := some h }

/-- `CronSchedule::day` setter. -/
def CronSchedule.set_day (c : CronSchedule) (d : ℕ) : Except SchedulerError CronSchedule :=
  if d = 0 ∨ 31 < d then .error .InvalidConfiguration else .ok { c with day := some d }

/-- `CronSchedule::month` setter. -/
def CronSchedule.set_month (c : CronSchedule) (m : ℕ) : Except SchedulerError CronSchedule :=
  if m = 0 ∨ 12 < m then .error .InvalidConfiguration else .ok { c with month := some m }

/-- `CronSchedule::weekday` setter. -/
def CronSchedule.set_weekday (c : CronSchedule) (w : ℕ) : Except SchedulerError CronSchedule :=
  if 7 ≤ w then .error .InvalidConfiguration else .ok { c with weekday := some w }

/-- Outcome of one field check of the constraint-satisfaction loop. -/
inductive FieldStep where
  | pass
  | err
  | jump (t : CDateTime)
deriving DecidableEq, Repr

/-- An `.unwrap()`-ed chain of chrono setters: `none` is a panic. -/
def stepBind : Option CDateTime → FieldStep
  | none => .err
  | some t => .jump t

/-- The `Check month` block of `CronSchedule::next_occurrence`. -/
def checkMonth (c : CronSchedule) (next : CDateTime) : FieldStep :=
  match c.month with
  | none => .pass
  | some m =>
    if next.month < m then
      stepBind (((((next.with_month m).bind (CDateTime.with_day · 1)).bind
        (CDateTime.with_hour · 0)).bind (CDateTime.with_minute · 0)).bind
        (CDateTime.with_second · 0))
    else if m < next.month then
      stepBind ((((((next.with_year (next.year + 1)).bind (CDateTime.with_month · 1)).bind
        (CDateTime.with_day · 1)).bind (CDateTime.with_hour · 0)).bind
        (CDateTime.with_minute · 0)).bind (CDateTime.with_second · 0))
    else .pass

/-- The `Check day` block. -/
def checkDay (c : CronSchedule) (next : CDateTime) : FieldStep :=
  match c.day with
  | none => .pass
  | some d =>
    if next.day < d then
      stepBind ((((next.with_day d).bind (CDateTime.with_hour · 0)).bind
        (CDateTime.with_minute · 0)).bind (CDateTime.with_second · 0))
    else if d < next.day then
      stepBind (((((next.with_month (next.month + 1)).bind (CDateTime.with_day · 1)).bind
        (CDateTime.with_hour · 0)).bind (CDateTime.with_minute · 0)).bind
        (CDateTime.with_second · 0))
    else .pass

/-- The `Check weekday` block: reset to midnight, then add 86400 seconds. -/
def checkWeekday (c : CronSchedule) (next : CDateTime) : FieldStep :=
  match c.weekday with
  | none => .pass
  | some w =>
    if next.weekday ≠ w then
      match (((next.with_hour 0).bind (CDateTime.with_minute · 0)).bind
        (CDateTime.with_second · 0)) with
      | none => .err
      | some t => .jump t.addDay
    else .pass

/-- The `Check hour` block. -/
def checkHour (c : CronSchedule) (next : CDateTime) : FieldStep :=
  match c.hour with
  | none => .pass
  | some h =>
    if next.hour < h then
      stepBind (((next.with_hour h).bind (CDateTime.with_minute · 0)).bind
        (CDateTime.with_second · 0))
    else if h < next.hour then
      stepBind ((((next.with_day (next.day + 1)).bind (CDateTime.with_hour · 0)).bind
        (CDateTime.with_minute · 0)).bind (CDateTime.with_second · 0))
    else .pass

/-- The `Check minute` block. -/
def checkMinute (c : CronSchedule) (next : CDateTime) : FieldStep :=
  match c.minute with
  | none => .pass
  | some mi =>
    if next.minute < mi then
      stepBind ((next.with_minute mi).bind (CDateTime.with_second · 0))
    else if mi < next.minute then
      stepBind (((next.with_hour (next.hour + 1)).bind (CDateTime.with_minute · 0)).bind
        (CDateTime.with_second · 0))
    else .pass

/-- Result of the cron search: a satisfying instant, a panic of one of the
`.unwrap()` calls, or fuel exhaustion (the source loops unboundedly). -/
inductive CronRes where
  | ok (t : CDateTime)
  | err
  | spin
deriving DecidableEq, Repr

/-- The `loop` of `CronSchedule::next_occurrence`, fuel-indexed; every
`continue` restarts from the month check. -/
def cronLoop (c : CronSchedule) : ℕ → CDateTime → CronRes
  | 0, _ => .spin
  | fuel+1, next =>
    match checkMonth c next with
    | .err => .err
    | .jump t => cronLoop c fuel t
    | .pass =>
    match checkDay c next with
    | .err => .err
    | .jump t => cronLoop c fuel t
    | .pass =>
    match checkWeekday c next with
    | .err => .err
    | .jump t => cronLoop c fuel t
    | .pass =>
    match checkHour c next with
    | .err => .err
    | .jump t => cronLoop c fuel t
    | .pass =>
    match checkMinute c next with
    | .err => .err
    | .jump t => cronLoop c fuel t
    | .pass => .ok next

/-- `CronSchedule::next_occurrence(after)`: start one second past `after` and
run the constraint-satisfaction loop. -/
def CronSchedule.next_occurrence (c : CronSchedule) (fuel : ℕ) (after : CDateTime) : CronRes :=
  cronLoop c fuel after.succSec

/-! ### Job and JobBuilder (`src/lib.rs`) -/

/-- State of `Job<T>`: the boxed schedule is embedded as its
`next_occurrence` function. -/
structure Job (T : Type) where
  schedule : ℤ → Option ℤ
  task : T
  max_repeats : Option ℕ
  repeats : ℕ
  end_time : Option ℤ

/-- State of `JobBuilder<T>`. -/
structure JobBuilder (T : Type) where
  schedule : Option (ℤ → Option ℤ) := none
  task : Option T := none
  max_repeats : Option ℕ := none
  end_time : Option ℤ := none

/-- `JobBuilder::build`. -/
def JobBuilder.build {T : Type} (b : JobBuilder T) : Except SchedulerError (Job T) :=
  match b.schedule, b.task with
  | some s, some t => .ok ⟨s, t, b.max_repeats, 0, b.end_time⟩
  | _, _ => .error .InvalidConfiguration

/-- `Job::should_execute(&mut self, current_time)`: the returned pair is the
`Option<&T>` result together with the job state after the call (the borrow
`&mut self` is embedded by returning the updated state). -/
def Job.should_execute {T : Type} (j : Job T) (current_time : ℤ) : Option T × Job T :=
  if (match j.max_repeats with | some max => max ≤ j.repeats | none => false : Bool) then (none, j)
  else if (match j.end_time with | some e => e ≤ current_time | none => false : Bool) then (none, j)
  else
    match j.schedule (current_time - 1) with
    | some next =>
      if next ≤ current_time then (some j.task, { j with repeats := j.repeats + 1 })
      else (none, j)
    | none => (none, j)

/-- Number of calls in a probe sequence that return a task reference,
threading the job state through the calls. -/
def Job.fireCount {T : Type} (j : Job T) : List ℤ → ℕ
  | [] => 0
  | t :: ts =>
    let r := j.should_execute t
    (if r.1.isSome then 1 else 0) + r.2.fireCount ts
/-! ### Lemmas about the binary32 model

Bounds on the rounded quotient: the truncated single-precision quotient of
`a / b` lies between the exact floor `a / b` and `a / b + 1`, provided the
dividend is below `2^24` (so that the exponent of the quotient keeps the
significand scale nonnegative).  `intervals_passed_strict` is the resulting
strictness property of the interval stepping for elapsed times below
`2^24` seconds. -/
theorem rndDiv_ge (N D : ℕ) : N / D ≤ rndDiv N D := by
  unfold rndDiv
  repeat' split
  all_goals omega

theorem rndDiv_le (N D : ℕ) : rndDiv N D ≤ N / D + 1 := by
  unfold rndDiv
  repeat' split
  all_goals omega

theorem nlog2_lower : ∀ fuel n, 0 < n → 2 ^ nlog2 fuel n ≤ n := by
  intro fuel
  induction fuel with
  | zero => intro n hn; simpa [nlog2] using hn
  | succ f ih =>
    intro n hn
    unfold nlog2
    split
    · simpa
    · have h2 : 2 ≤ n := by omega
      have hpos : 0 < n / 2 := Nat.div_pos h2 (by norm_num)
      have := ih (n / 2) hpos
      calc 2 ^ (nlog2 f (n / 2) + 1) = 2 ^ nlog2 f (n / 2) * 2 := by ring
        _ ≤ n / 2 * 2 := by omega
        _ ≤ n := Nat.div_mul_le_self n 2

theorem nlog2_le_23 (n : ℕ) (h : n < 2 ^ 24) : nlog2 64 n ≤ 23 := by
  rcases Nat.eq_zero_or_pos n with h0 | hpos
  · subst h0; simp [nlog2]
  · by_contra hgt
    have h24 : 24 ≤ nlog2 64 n := by omega
    have := nlog2_lower 64 n hpos
    have : (2 : ℕ) ^ 24 ≤ 2 ^ nlog2 64 n := Nat.pow_le_pow_right (by norm_num) h24
    omega

theorem flog2_le_23 (a b : ℕ) (h : a < 2 ^ 24) : flog2 a b ≤ 23 := by
  unfold flog2
  have hla := nlog2_le_23 a h
  split <;> omega

theorem roundF32Nat_eq (n : ℕ) (h : n ≤ 2 ^ 24) : roundF32Nat n = n := by
  unfold roundF32Nat
  split
  · rfl
  · rename_i hl
    have hlow : 2 ^ nlog2 64 n ≤ n := by
      apply nlog2_lower
      by_contra h0
      simp [Nat.eq_zero_of_not_pos h0, nlog2] at hl
    have h24 : nlog2 64 n = 24 := by
      by_contra hne
      have : 25 ≤ nlog2 64 n := by omega
      have : (2:ℕ) ^ 25 ≤ 2 ^ nlog2 64 n := Nat.pow_le_pow_right (by norm_num) this
      omega
    rw [h24]
    have hn : n = 2 ^ 24 := by
      rw [h24] at hlow; omega
    subst hn
    norm_num [rndDiv]

theorem roundF32Nat_pos (n : ℕ) (h : 0 < n) : 0 < roundF32Nat n := by
  unfold roundF32Nat
  split
  · exact h
  · rename_i hl
    have hlow : 2 ^ nlog2 64 n ≤ n := nlog2_lower 64 n h
    have hge : 2 ^ (nlog2 64 n - 23) ≤ n := by
      calc 2 ^ (nlog2 64 n - 23) ≤ 2 ^ nlog2 64 n := Nat.pow_le_pow_right (by norm_num) (by omega)
        _ ≤ n := hlow
    have h1 : 1 ≤ n / 2 ^ (nlog2 64 n - 23) :=
      (Nat.one_le_div_iff (Nat.pos_pow_of_pos _ (by norm_num))).mpr hge
    have := rndDiv_ge n (2 ^ (nlog2 64 n - 23))
    have hpow : 0 < 2 ^ (nlog2 64 n - 23) := Nat.pos_pow_of_pos _ (by norm_num)
    exact Nat.mul_pos (by omega) hpow

theorem f32divTrunc_ge (a b : ℕ) (hb : 0 < b) (h : a < 2 ^ 24) :
    a / b ≤ f32divTrunc a b := by
  unfold f32divTrunc
  have he : flog2 a b ≤ 23 := flog2_le_23 a b h
  rw [if_pos he]
  set s := (23 - flog2 a b).toNat with hs
  have hpow : 0 < 2 ^ s := Nat.pos_pow_of_pos _ (by norm_num)
  have h1 : a / b * 2 ^ s ≤ a * 2 ^ s / b := by
    rw [Nat.le_div_iff_mul_le hb]
    calc a / b * 2 ^ s * b = a / b * b * 2 ^ s := by ring
      _ ≤ a * 2 ^ s := Nat.mul_le_mul_right _ (Nat.div_mul_le_self a b)
  have h2 := rndDiv_ge (a * 2 ^ s) b
  calc a / b = a / b * 2 ^ s / 2 ^ s := by rw [Nat.mul_div_cancel _ hpow]
    _ ≤ rndDiv (a * 2 ^ s) b / 2 ^ s := Nat.div_le_div_right (by omega)

theorem f32divTrunc_le (a b : ℕ) (hb : 0 < b) (h : a < 2 ^ 24) :
    f32divTrunc a b ≤ a / b + 1 := by
  unfold f32divTrunc
  have he : flog2 a b ≤ 23 := flog2_le_23 a b h
  rw [if_pos he]
  set s := (23 - flog2 a b).toNat with hs
  have hpow : 0 < 2 ^ s := Nat.pos_pow_of_pos _ (by norm_num)
  have h1 : a * 2 ^ s / b < (a / b + 1) * 2 ^ s := by
    rw [Nat.div_lt_iff_lt_mul hb]
    have hlt : a < (a / b + 1) * b := by
      have h1 := Nat.div_add_mod a b
      have h2 : a % b < b := Nat.mod_lt a hb
      have h3 : (a / b + 1) * b = b * (a / b) + b := by ring
      omega
    calc a * 2 ^ s < (a / b + 1) * b * 2 ^ s := by
          exact (Nat.mul_lt_mul_right hpow).mpr hlt
      _ = (a / b + 1) * 2 ^ s * b := by ring
  have h2 := rndDiv_le (a * 2 ^ s) b
  have h3 : rndDiv (a * 2 ^ s) b ≤ (a / b + 1) * 2 ^ s := by omega
  calc rndDiv (a * 2 ^ s) b / 2 ^ s ≤ (a / b + 1) * 2 ^ s / 2 ^ s :=
        Nat.div_le_div_right h3
    _ = a / b + 1 := Nat.mul_div_cancel _ hpow

theorem intervals_passed_strict (elapsed I : ℕ) (hI : 0 < I) (h : elapsed < 2 ^ 24) :
    elapsed < I * ((intervals_passed elapsed I + 1) % 2 ^ 32) := by
  unfold intervals_passed
  rw [if_neg (by omega)]
  rcases Nat.eq_zero_or_pos elapsed with h0 | hpos
  · subst h0; simpa using hI
  · rw [if_neg (by omega)]
    have hre : roundF32Nat elapsed = elapsed := roundF32Nat_eq elapsed (by omega)
    rw [hre]
    have hIpos : 0 < roundF32Nat I := roundF32Nat_pos I hI
    rcases le_or_lt I elapsed with hle | hlt
    · have hrI : roundF32Nat I = I := roundF32Nat_eq I (by omega)
      rw [hrI]
      have hge := f32divTrunc_ge elapsed I hI h
      have hleu := f32divTrunc_le elapsed I hI h
      have hdivle : elapsed / I ≤ elapsed := Nat.div_le_self _ _
      have hmod : (f32divTrunc elapsed I + 1) % 2 ^ 32 = f32divTrunc elapsed I + 1 := by
        apply Nat.mod_eq_of_lt; omega
      rw [hmod]
      have hlt : elapsed < (elapsed / I + 1) * I := by
        have h1 := Nat.div_add_mod elapsed I
        have h2 : elapsed % I < I := Nat.mod_lt elapsed hI
        have h3 : (elapsed / I + 1) * I = I * (elapsed / I) + I := by ring
        omega
      calc elapsed < (elapsed / I + 1) * I := hlt
        _ ≤ (f32divTrunc elapsed I + 1) * I := Nat.mul_le_mul_right _ (by omega)
        _ = I * (f32divTrunc elapsed I + 1) := by ring
    · have hleu := f32divTrunc_le elapsed (roundF32Nat I) hIpos h
      have hdivle : elapsed / roundF32Nat I ≤ elapsed := Nat.div_le_self _ _
      have hmod : (f32divTrunc elapsed (roundF32Nat I) + 1) % 2 ^ 32
          = f32divTrunc elapsed (roundF32Nat I) + 1 := by
        apply Nat.mod_eq_of_lt; omega
      rw [hmod]
      have h1 : 1 ≤ f32divTrunc elapsed (roundF32Nat I) + 1 := by omega
      calc elapsed < I := hlt
        _ = I * 1 := by ring
        _ ≤ I * (f32divTrunc elapsed (roundF32Nat I) + 1) := Nat.mul_le_mul_left _ h1

/-! ### Lemmas about CombinedSchedule -/

theorem ominTime_none_right (a : Option ℤ) : ominTime a none = a := by
  cases a <;> rfl

theorem ominTime_assoc (a b c : Option ℤ) :
    ominTime (ominTime a b) c = ominTime a (ominTime b c) := by
  cases a <;> cases b <;> cases c <;> simp [ominTime, min_assoc]

theorem combined_foldl_eq (after : ℤ) :
    ∀ (l : List (ℤ → Option ℤ)) (acc : Option ℤ),
    List.foldl
      (fun earliest sched =>
        match sched after with
        | some next =>
          match earliest with
          | none => some next
          | some cur => if next < cur then some next else some cur
        | none => earliest)
      acc l
      = ominTime acc ((l.map (fun sched => sched after)).foldr ominTime none) := by
  intro l
  induction l with
  | nil => intro acc; simp [ominTime_none_right]
  | cons s l ih =>
    intro acc
    simp only [List.foldl_cons, List.map_cons, List.foldr_cons]
    rw [ih, ← ominTime_assoc]
    congr 1
    cases hsa : s after with
    | none => cases acc <;> simp [ominTime]
    | some next =>
      cases acc with
      | none => simp [ominTime]
      | some cur =>
        simp only [ominTime]
        rcases lt_or_le next cur with h | h
        · rw [if_pos h, min_eq_right (le_of_lt h)]
        · rw [if_neg (not_lt.mpr h), min_eq_left h]

theorem foldr_ominTime_none_iff (l : List (Option ℤ)) :
    l.foldr ominTime none = none ↔ ∀ a ∈ l, a = none := by
  induction l with
  | nil => simp
  | cons a l ih =>
    cases a with
    | none => simpa [ominTime] using ih
    | some x =>
      simp only [List.foldr_cons]
      cases h : l.foldr ominTime none <;> simp [ominTime, ih]

/-! ### Lemmas about Job -/

theorem should_execute_result {T : Type} (j : Job T) (t : ℤ) :
    j.should_execute t = (none, j) ∨
    j.should_execute t = (some j.task, { j with repeats := j.repeats + 1 }) := by
  unfold Job.should_execute
  split
  · exact Or.inl rfl
  · split
    · exact Or.inl rfl
    · cases j.schedule (t - 1) with
      | none => exact Or.inl rfl
      | some next =>
        simp only
        split
        · exact Or.inr rfl
        · exact Or.inl rfl

theorem should_execute_some_iff {T : Type} (j : Job T) (t : ℤ) :
    (j.should_execute t).1.isSome ↔
      (∀ max, j.max_repeats = some max → j.repeats < max) ∧
      (∀ e, j.end_time = some e → t < e) ∧
      (∃ v, j.schedule (t - 1) = some v ∧ v ≤ t) := by
  unfold Job.should_execute
  cases hmr : j.max_repeats <;> cases het : j.end_time <;>
    cases hs : j.schedule (t - 1) <;>
    simp only [hmr, het, hs] <;>
    repeat' split
  all_goals simp_all

theorem fireCount_le_sub {T : Type} :
    ∀ (ts : List ℤ) (j : Job T) (N : ℕ), j.max_repeats = some N →
    j.fireCount ts ≤ N - j.repeats := by
  intro ts
  induction ts with
  | nil => intro j N hN; simp [Job.fireCount]
  | cons t ts ih =>
    intro j N hN
    rcases should_execute_result j t with h | h
    · simp only [Job.fireCount, h, Option.isSome_none, Bool.false_eq_true, if_false]
      simpa using ih j N hN
    · have hsome : (j.should_execute t).1.isSome := by rw [h]; rfl
      have hlt : j.repeats < N := by
        have := (should_execute_some_iff j t).mp hsome
        exact this.1 N hN
      simp only [Job.fireCount, h, Option.isSome_some, if_true]
      have := ih { j with repeats := j.repeats + 1 } N hN
      simp only at this
      omega

/-! ## Claim theorems: OneTime, Interval constructor, Interval formula,
Combined, Job -/

/-- C5: for a one-time schedule with target `T`, `next_occurrence(after)` is
`Some(T)` exactly when `after < T`, and `None` exactly when `after ≥ T`. -/
theorem oneTime_next_iff (T after : ℤ) :
    (OneTimeSchedule.next_occurrence ⟨T⟩ after = some T ↔ after < T) ∧
    (OneTimeSchedule.next_occurrence ⟨T⟩ after = none ↔ T ≤ after) := by
  unfold OneTimeSchedule.next_occurrence
  rcases lt_or_le after T with h | h
  · simp [h]
  · simp [not_lt.mpr h, h]

/-- C9: `IntervalSchedule::new(interval, start_time)` fails with
`InvalidDuration` exactly when the interval is not positive, and for every
positive interval and every start time it succeeds with the expected state
(no other failure exists). -/
theorem interval_new_iff (I : ℕ) (start : ℤ) :
    (IntervalSchedule.new I start = .error .InvalidDuration ↔ ¬ 0 < I) ∧
    (IntervalSchedule.new I start = .ok ⟨I, start, none⟩ ↔ 0 < I) := by
  unfold IntervalSchedule.new
  rcases Nat.eq_zero_or_pos I with h | h
  · simp [h]
  · simp [h, Nat.pos_iff_ne_zero.mp h]

/-- C2 (code bug): with interval 1 s and start 0, at `after = 2^24 + 1` the
`f32` floor division loses precision: the code returns `after` itself,
while the spec's exact formula `start + (k+1)·interval` gives `after + 1`. -/
theorem interval_f32_code_bug :
    IntervalSchedule.next_occurrence ⟨1, 0, none⟩ 16777217 = some 16777217 ∧
    IntervalSchedule.spec_next_occurrence ⟨1, 0, none⟩ 16777217 = some 16777218 := by
  constructor <;> decide

/-- C6: a combined schedule answers the `ominTime`-minimum (`none` = `+∞`) of
its components' answers, and answers `none` exactly when every component
does. -/
theorem combined_next_min (c : CombinedSchedule) (after : ℤ) :
    c.next_occurrence after = c.spec_next_occurrence after ∧
    (c.next_occurrence after = none ↔ ∀ sched ∈ c.schedules, sched after = none) := by
  have heq : c.next_occurrence after = c.spec_next_occurrence after := by
    unfold CombinedSchedule.next_occurrence CombinedSchedule.spec_next_occurrence
    rw [combined_foldl_eq]
    rfl
  refine ⟨heq, ?_⟩
  rw [heq]
  unfold CombinedSchedule.spec_next_occurrence
  rw [foldr_ominTime_none_iff]
  simp

/-- C7: `Job::should_execute(current_time)` fires exactly when the repeat
bound has not been reached, the end time (when set) is still in the future,
and the schedule reports an occurrence at most `current_time` when probed one
second earlier; in exactly that case it returns the task and increments
`repeats`, otherwise it returns `none` and leaves the job unchanged. -/
theorem should_execute_spec {T : Type} (j : Job T) (t : ℤ) :
    ((j.should_execute t).1.isSome ↔
      (∀ max, j.max_repeats = some max → j.repeats < max) ∧
      (∀ e, j.end_time = some e → t < e) ∧
      (∃ v, j.schedule (t - 1) = some v ∧ v ≤ t)) ∧
    ((j.should_execute t).1.isSome →
      (j.should_execute t).1 = some j.task ∧
      (j.should_execute t).2 = { j with repeats := j.repeats + 1 }) ∧
    ((j.should_execute t).1 = none → (j.should_execute t).2 = j) := by
  refine ⟨should_execute_some_iff j t, ?_, ?_⟩ <;>
    rcases should_execute_result j t with h | h <;> rw [h] <;> simp

/-- C10 (frame): when `should_execute` returns `none` the job state is
unchanged; when it fires, `repeats` grows by exactly one and the schedule,
task, repeat bound and end time are untouched. -/
theorem should_execute_frame {T : Type} (j : Job T) (t : ℤ) :
    ((j.should_execute t).1 = none → (j.should_execute t).2 = j) ∧
    ((j.should_execute t).1.isSome →
      (j.should_execute t).2.repeats = j.repeats + 1 ∧
      (j.should_execute t).2.schedule = j.schedule ∧
      (j.should_execute t).2.task = j.task ∧
      (j.should_execute t).2.max_repeats = j.max_repeats ∧
      (j.should_execute t).2.end_time = j.end_time) := by
  rcases should_execute_result j t with h | h <;> rw [h] <;> simp

/-- C8: a job built with `max_repeats = N` fires at most `N` times over any
finite probe sequence. -/
theorem job_fires_at_most_max {T : Type} (b : JobBuilder T) (j : Job T) (N : ℕ)
    (ts : List ℤ) (hN : b.max_repeats = some N) (hb : b.build = .ok j) :
    j.fireCount ts ≤ N := by
  unfold JobBuilder.build at hb
  cases hbs : b.schedule <;> cases hbt : b.task <;> rw [hbs, hbt] at hb <;>
    simp at hb
  rename_i sched task
  subst hb
  have := fireCount_le_sub ts (⟨sched, task, b.max_repeats, 0, b.end_time⟩ : Job T) N hN
  simpa using this

/-- Witness for C8 at a concrete job: schedule `fun u => some u` (always due),
`max_repeats = 2`, four probes, at most two fires. -/
theorem job_fires_at_most_max_witness :
    Job.fireCount ⟨fun u => some u, (0 : ℕ), some 2, 0, none⟩ [0, 1, 2, 3] ≤ 2 :=
  job_fires_at_most_max ⟨some fun u => some u, some 0, some 2, none⟩ _ 2 [0, 1, 2, 3] rfl rfl

/-! ### Calendar lemmas -/

theorem isLeap_iff (y : ℤ) :
    isLeap y = true ↔ y % 4 = 0 ∧ (y % 100 ≠ 0 ∨ y % 400 = 0) := by
  simp [isLeap, Bool.and_eq_true, Bool.or_eq_true, beq_iff_eq, bne_iff_ne]

theorem daysBeforeYear_succ (y : ℤ) :
    daysBeforeYear (y + 1) = daysBeforeYear y + (if isLeap y then 366 else 365) := by
  unfold daysBeforeYear
  by_cases hl : isLeap y = true
  · rw [if_pos hl]
    rw [isLeap_iff] at hl
    omega
  · rw [if_neg hl]
    rw [isLeap_iff] at hl  -- hl : ¬ (...)
    omega

theorem daysInMonth_pos (y : ℤ) (m : ℕ) : 1 ≤ daysInMonth y m := by
  unfold daysInMonth
  split_ifs <;> omega

theorem daysInMonth_le (y : ℤ) (m : ℕ) : daysInMonth y m ≤ 31 := by
  unfold daysInMonth
  split_ifs <;> omega

theorem dayNum_month_step (y : ℤ) (mo : ℕ) (h1 : 1 ≤ mo) (h2 : mo ≤ 11) :
    dayNum y (mo + 1) 1 = dayNum y mo (daysInMonth y mo) + 1 := by
  unfold dayNum daysInMonth monthDaysBefore
  interval_cases mo <;> by_cases hl : isLeap y = true <;> norm_num [hl] <;> ring

theorem dayNum_year_step (y : ℤ) :
    dayNum (y + 1) 1 1 = dayNum y 12 31 + 1 := by
  unfold dayNum monthDaysBefore
  rw [daysBeforeYear_succ]
  by_cases hl : isLeap y = true <;> norm_num [hl] <;> ring

theorem dayNum_day_le (y : ℤ) (m d1 d2 : ℕ) :
    dayNum y m d1 ≤ dayNum y m d2 ↔ d1 ≤ d2 := by
  unfold dayNum
  omega

theorem dayNum_month_lt (y : ℤ) (mo M d : ℕ) (h1 : 1 ≤ mo) (hlt : mo < M)
    (hM : M ≤ 12) (hd : d ≤ daysInMonth y mo) :
    dayNum y mo d < dayNum y M 1 := by
  induction M with
  | zero => omega
  | succ M ih =>
    rcases Nat.lt_or_ge mo M with hmo | hmo
    · have hstep : dayNum y (M + 1) 1 = dayNum y M (daysInMonth y M) + 1 :=
        dayNum_month_step y M (by omega) (by omega)
      have h3 : dayNum y M 1 ≤ dayNum y M (daysInMonth y M) :=
        (dayNum_day_le y M 1 (daysInMonth y M)).mpr (daysInMonth_pos y M)
      have := ih hmo (by omega)
      omega
    · have hMeq : M = mo := by omega
      subst hMeq
      have hstep : dayNum y (M + 1) 1 = dayNum y M (daysInMonth y M) + 1 :=
        dayNum_month_step y M h1 (by omega)
      have h3 : dayNum y M d ≤ dayNum y M (daysInMonth y M) :=
        (dayNum_day_le y M d (daysInMonth y M)).mpr hd
      omega

theorem dayNum_le_year_end (y : ℤ) (mo d : ℕ) (h1 : 1 ≤ mo) (hM : mo ≤ 12)
    (hd : d ≤ daysInMonth y mo) :
    dayNum y mo d ≤ dayNum y 12 31 := by
  rcases Nat.lt_or_ge mo 12 with h | h
  · have h2 := dayNum_month_lt y mo 12 d h1 h (by omega) hd
    have h3 : dayNum y 12 1 ≤ dayNum y 12 31 := (dayNum_day_le y 12 1 31).mpr (by omega)
    omega
  · have hmo : mo = 12 := by omega
    subst hmo
    have h31 : daysInMonth y 12 = 31 := by unfold daysInMonth; norm_num
    rw [h31] at hd
    exact (dayNum_day_le y 12 d 31).mpr hd

theorem dayNum_succ_day (y : ℤ) (m d : ℕ) : dayNum y m (d + 1) = dayNum y m d + 1 := by
  unfold dayNum
  push_cast
  ring

theorem addDay_spec (t : CDateTime) (hv : t.Valid) :
    t.addDay.Valid ∧ t.addDay.dayNumber = t.dayNumber + 1 ∧
    t.addDay.hour = t.hour ∧ t.addDay.minute = t.minute ∧ t.addDay.second = t.second := by
  obtain ⟨y, mo, d, h, mi, s⟩ := t
  obtain ⟨hm1, hm2, hd1, hd2, hh, hmi, hs⟩ := hv
  unfold CDateTime.addDay
  dsimp only at hm1 hm2 hd1 hd2 hh hmi hs ⊢
  split_ifs with h1 h2
  · refine ⟨?_, ?_, rfl, rfl, rfl⟩
    · unfold CDateTime.Valid
      dsimp only
      omega
    · exact dayNum_succ_day y mo d
  · have hde : d = daysInMonth y mo := by omega
    refine ⟨?_, ?_, rfl, rfl, rfl⟩
    · unfold CDateTime.Valid
      dsimp only
      have hp := daysInMonth_pos y (mo + 1)
      omega
    · show dayNum y (mo + 1) 1 = dayNum y mo d + 1
      rw [hde]
      exact dayNum_month_step y mo hm1 (by omega)
  · have hmo : mo = 12 := by omega
    have h31 : daysInMonth y 12 = 31 := by unfold daysInMonth; norm_num
    have hde : d = 31 := by rw [hmo] at h1 hd2; rw [h31] at h1 hd2; omega
    refine ⟨?_, ?_, rfl, rfl, rfl⟩
    · unfold CDateTime.Valid
      dsimp only
      have hp := daysInMonth_pos (y + 1) 1
      omega
    · show dayNum (y + 1) 1 1 = dayNum y mo d + 1
      rw [hmo, hde]
      exact dayNum_year_step y

theorem succSec_spec (t : CDateTime) (hv : t.Valid) :
    t.succSec.Valid ∧ t.succSec.toSecs = t.toSecs + 1 := by
  obtain ⟨y, mo, d, h, mi, s⟩ := t
  obtain ⟨hm1, hm2, hd1, hd2, hh, hmi, hs⟩ := hv
  dsimp only at hm1 hm2 hd1 hd2 hh hmi hs
  unfold CDateTime.succSec
  dsimp only
  split_ifs with h1 h2 h3
  · refine ⟨?_, ?_⟩
    · unfold CDateTime.Valid
      dsimp only
      omega
    unfold CDateTime.toSecs CDateTime.timeOfDay CDateTime.dayNumber
    dsimp only
    push_cast
    omega
  · refine ⟨?_, ?_⟩
    · unfold CDateTime.Valid
      dsimp only
      omega
    unfold CDateTime.toSecs CDateTime.timeOfDay CDateTime.dayNumber
    dsimp only
    push_cast
    omega
  · refine ⟨?_, ?_⟩
    · unfold CDateTime.Valid
      dsimp only
      omega
    unfold CDateTime.toSecs CDateTime.timeOfDay CDateTime.dayNumber
    dsimp only
    push_cast
    omega
  · have hrec : CDateTime.Valid ⟨y, mo, d, 0, 0, 0⟩ :=
      ⟨hm1, hm2, hd1, hd2, by norm_num, by norm_num, by norm_num⟩
    obtain ⟨hv2, hdn, hh2, hmi2, hs2⟩ := addDay_spec ⟨y, mo, d, 0, 0, 0⟩ hrec
    refine ⟨hv2, ?_⟩
    unfold CDateTime.toSecs CDateTime.timeOfDay
    rw [hdn, hh2, hmi2, hs2]
    unfold CDateTime.dayNumber
    dsimp only
    push_cast
    omega

/-! ### Evaluation of the unwrap chains of the cron loop -/

theorem chainMonth (t : CDateTime) (m : ℕ) :
    (((((t.with_month m).bind (CDateTime.with_day · 1)).bind
        (CDateTime.with_hour · 0)).bind (CDateTime.with_minute · 0)).bind
        (CDateTime.with_second · 0))
      = if 1 ≤ m ∧ m ≤ 12 ∧ 1 ≤ t.day ∧ t.day ≤ daysInMonth t.year m
        then some ⟨t.year, m, 1, 0, 0, 0⟩ else none := by
  unfold CDateTime.with_month
  split_ifs with h1
  · have hdp := daysInMonth_pos t.year m
    simp [CDateTime.with_day, CDateTime.with_hour, CDateTime.with_minute,
      CDateTime.with_second, hdp]
  · simp

theorem chainYear (t : CDateTime) (y2 : ℤ) :
    ((((((t.with_year y2).bind (CDateTime.with_month · 1)).bind
        (CDateTime.with_day · 1)).bind (CDateTime.with_hour · 0)).bind
        (CDateTime.with_minute · 0)).bind (CDateTime.with_second · 0))
      = if 1 ≤ t.month ∧ t.month ≤ 12 ∧ 1 ≤ t.day ∧ t.day ≤ daysInMonth y2 t.month
        then some ⟨y2, 1, 1, 0, 0, 0⟩ else none := by
  unfold CDateTime.with_year
  split_ifs with h1
  · have hd31 : t.day ≤ daysInMonth y2 1 := by
      have h1' := h1.2.2.2
      have := daysInMonth_le y2 t.month
      have h31 : daysInMonth y2 1 = 31 := by unfold daysInMonth; norm_num
      omega
    have hdp := daysInMonth_pos y2 1
    simp [CDateTime.with_month, CDateTime.with_day, CDateTime.with_hour,
      CDateTime.with_minute, CDateTime.with_second, hd31, hdp, h1.2.2.1]
  · simp

theorem chainDay (t : CDateTime) (D : ℕ) :
    ((((t.with_day D).bind (CDateTime.with_hour · 0)).bind
        (CDateTime.with_minute · 0)).bind (CDateTime.with_second · 0))
      = if 1 ≤ D ∧ D ≤ daysInMonth t.year t.month
        then some ⟨t.year, t.month, D, 0, 0, 0⟩ else none := by
  unfold CDateTime.with_day
  split_ifs with h1
  · simp [CDateTime.with_hour, CDateTime.with_minute, CDateTime.with_second]
  · simp

theorem chainMidnight (t : CDateTime) :
    (((t.with_hour 0).bind (CDateTime.with_minute · 0)).bind
        (CDateTime.with_second · 0))
      = some ⟨t.year, t.month, t.day, 0, 0, 0⟩ := by
  simp [CDateTime.with_hour, CDateTime.with_minute, CDateTime.with_second]

theorem chainHour (t : CDateTime) (H : ℕ) :
    (((t.with_hour H).bind (CDateTime.with_minute · 0)).bind
        (CDateTime.with_second · 0))
      = if H < 24 then some ⟨t.year, t.month, t.day, H, 0, 0⟩ else none := by
  unfold CDateTime.with_hour
  split_ifs with h1
  · simp [CDateTime.with_minute, CDateTime.with_second]
  · simp

theorem chainMinute (t : CDateTime) (M : ℕ) :
    ((t.with_minute M).bind (CDateTime.with_second · 0))
      = if M < 60 then some ⟨t.year, t.month, t.day, t.hour, M, 0⟩ else none := by
  unfold CDateTime.with_minute
  split_ifs with h1
  · simp [CDateTime.with_second]
  · simp

/-! ### Every jump of the cron loop moves strictly forward -/

theorem stepBind_jump {o : Option CDateTime} {u : CDateTime}
    (h : stepBind o = .jump u) : o = some u := by
  cases o with
  | none => simp [stepBind] at h
  | some x => simp [stepBind] at h; simp [h]

theorem tod_nonneg (t : CDateTime) : 0 ≤ t.timeOfDay := by
  unfold CDateTime.timeOfDay; positivity

theorem tod_lt (t : CDateTime) (hv : t.Valid) : t.timeOfDay < 86400 := by
  obtain ⟨_, _, _, _, hh, hmi, hs⟩ := hv
  unfold CDateTime.timeOfDay
  omega

theorem toSecs_lt_of_dayNumber_lt (t u : CDateTime) (hv : t.Valid)
    (h : t.dayNumber < u.dayNumber) : t.toSecs < u.toSecs := by
  unfold CDateTime.toSecs
  have h1 := tod_lt t hv
  have h2 := tod_nonneg u
  have h3 : t.dayNumber * 86400 + 86400 ≤ u.dayNumber * 86400 := by
    have : t.dayNumber + 1 ≤ u.dayNumber := by omega
    nlinarith
  omega

theorem dayNum_day_lt (y : ℤ) (m d1 d2 : ℕ) (h : d1 < d2) :
    dayNum y m d1 < dayNum y m d2 := by
  unfold dayNum
  omega

theorem mk_valid (y : ℤ) (mo d h mi s : ℕ) (h1 : 1 ≤ mo) (h2 : mo ≤ 12)
    (h3 : 1 ≤ d) (h4 : d ≤ daysInMonth y mo) (h5 : h < 24) (h6 : mi < 60) (h7 : s < 60) :
    (CDateTime.mk y mo d h mi s).Valid :=
  ⟨h1, h2, h3, h4, h5, h6, h7⟩

theorem toSecs_mk (y : ℤ) (mo d h mi s : ℕ) :
    (CDateTime.mk y mo d h mi s).toSecs
      = dayNum y mo d * 86400 + ((h : ℤ) * 3600 + mi * 60 + s) := by
  unfold CDateTime.toSecs CDateTime.timeOfDay CDateTime.dayNumber
  dsimp only

theorem dayNumber_mk (y : ℤ) (mo d h mi s : ℕ) :
    (CDateTime.mk y mo d h mi s).dayNumber = dayNum y mo d := rfl

theorem checkMonth_jump (c : CronSchedule) (t u : CDateTime) (hv : t.Valid)
    (h : checkMonth c t = .jump u) : u.Valid ∧ t.toSecs < u.toSecs := by
  obtain ⟨hvm1, hvm2, hvd1, hvd2, hvh, hvmi, hvs⟩ := hv
  unfold checkMonth at h
  cases hcm : c.month with
  | none => rw [hcm] at h; cases h
  | some m =>
    rw [hcm] at h
    dsimp only at h
    rcases Nat.lt_trichotomy t.month m with h1 | h1 | h1
    · rw [if_pos h1, chainMonth] at h
      by_cases h3 : 1 ≤ m ∧ m ≤ 12 ∧ 1 ≤ t.day ∧ t.day ≤ daysInMonth t.year m
      · rw [if_pos h3] at h
        have hu := stepBind_jump h
        have hu2 : u = ⟨t.year, m, 1, 0, 0, 0⟩ := by
          injection hu with hu3
          exact hu3.symm
        subst hu2
        obtain ⟨hc1, hc2, hc3, hc4⟩ := h3
        refine ⟨mk_valid _ _ _ _ _ _ hc1 hc2 (le_refl 1) (daysInMonth_pos _ _)
          (by norm_num) (by norm_num) (by norm_num), ?_⟩
        apply toSecs_lt_of_dayNumber_lt _ _ ⟨hvm1, hvm2, hvd1, hvd2, hvh, hvmi, hvs⟩
        show dayNum t.year t.month t.day < dayNum t.year m 1
        exact dayNum_month_lt t.year t.month m t.day hvm1 h1 hc2 hvd2
      · rw [if_neg h3] at h
        cases h
    · rw [if_neg (by omega), if_neg (by omega)] at h
      cases h
    · rw [if_neg (by omega), if_pos h1, chainYear] at h
      by_cases h3 : 1 ≤ t.month ∧ t.month ≤ 12 ∧ 1 ≤ t.day ∧
          t.day ≤ daysInMonth (t.year + 1) t.month
      · rw [if_pos h3] at h
        have hu := stepBind_jump h
        have hu2 : u = ⟨t.year + 1, 1, 1, 0, 0, 0⟩ := by
          injection hu with hu3
          exact hu3.symm
        subst hu2
        refine ⟨mk_valid _ _ _ _ _ _ (by norm_num) (by norm_num) (le_refl 1)
          (daysInMonth_pos _ _) (by norm_num) (by norm_num) (by norm_num), ?_⟩
        apply toSecs_lt_of_dayNumber_lt _ _ ⟨hvm1, hvm2, hvd1, hvd2, hvh, hvmi, hvs⟩
        have hys := dayNum_year_step t.year
        have hle := dayNum_le_year_end t.year t.month t.day hvm1 hvm2 hvd2
        show dayNum t.year t.month t.day < dayNum (t.year + 1) 1 1
        omega
      · rw [if_neg h3] at h
        cases h

theorem toSecs_eq (t : CDateTime) :
    t.toSecs = dayNum t.year t.month t.day * 86400
      + ((t.hour : ℤ) * 3600 + t.minute * 60 + t.second) := by
  unfold CDateTime.toSecs CDateTime.timeOfDay CDateTime.dayNumber
  ring

theorem checkDay_jump (c : CronSchedule) (t u : CDateTime) (hv : t.Valid)
    (h : checkDay c t = .jump u) : u.Valid ∧ t.toSecs < u.toSecs := by
  obtain ⟨hvm1, hvm2, hvd1, hvd2, hvh, hvmi, hvs⟩ := hv
  unfold checkDay at h
  cases hcd : c.day with
  | none => rw [hcd] at h; cases h
  | some D =>
    rw [hcd] at h
    dsimp only at h
    rcases Nat.lt_trichotomy t.day D with h1 | h1 | h1
    · rw [if_pos h1, chainDay] at h
      by_cases h3 : 1 ≤ D ∧ D ≤ daysInMonth t.year t.month
      · rw [if_pos h3] at h
        have hu := stepBind_jump h
        have hu2 : u = ⟨t.year, t.month, D, 0, 0, 0⟩ := by
          injection hu with hu3
          exact hu3.symm
        subst hu2
        refine ⟨mk_valid _ _ _ _ _ _ hvm1 hvm2 h3.1 h3.2
          (by norm_num) (by norm_num) (by norm_num), ?_⟩
        apply toSecs_lt_of_dayNumber_lt _ _ ⟨hvm1, hvm2, hvd1, hvd2, hvh, hvmi, hvs⟩
        show dayNum t.year t.month t.day < dayNum t.year t.month D
        exact dayNum_day_lt _ _ _ _ h1
      · rw [if_neg h3] at h
        cases h
    · rw [if_neg (by omega), if_neg (by omega)] at h
      cases h
    · rw [if_neg (by omega), if_pos h1, chainMonth] at h
      by_cases h3 : 1 ≤ t.month + 1 ∧ t.month + 1 ≤ 12 ∧ 1 ≤ t.day ∧
          t.day ≤ daysInMonth t.year (t.month + 1)
      · rw [if_pos h3] at h
        have hu := stepBind_jump h
        have hu2 : u = ⟨t.year, t.month + 1, 1, 0, 0, 0⟩ := by
          injection hu with hu3
          exact hu3.symm
        subst hu2
        refine ⟨mk_valid _ _ _ _ _ _ h3.1 h3.2.1 (le_refl 1) (daysInMonth_pos _ _)
          (by norm_num) (by norm_num) (by norm_num), ?_⟩
        apply toSecs_lt_of_dayNumber_lt _ _ ⟨hvm1, hvm2, hvd1, hvd2, hvh, hvmi, hvs⟩
        show dayNum t.year t.month t.day < dayNum t.year (t.month + 1) 1
        exact dayNum_month_lt t.year t.month (t.month + 1) t.day hvm1 (by omega) h3.2.1 hvd2
      · rw [if_neg h3] at h
        cases h

theorem checkWeekday_jump (c : CronSchedule) (t u : CDateTime) (hv : t.Valid)
    (h : checkWeekday c t = .jump u) : u.Valid ∧ t.toSecs < u.toSecs := by
  have hv2 := hv
  obtain ⟨hvm1, hvm2, hvd1, hvd2, hvh, hvmi, hvs⟩ := hv2
  unfold checkWeekday at h
  cases hcw : c.weekday with
  | none => rw [hcw] at h; cases h
  | some w =>
    rw [hcw] at h
    dsimp only at h
    by_cases h1 : t.weekday ≠ w
    · rw [if_pos h1, chainMidnight] at h
      dsimp only at h
      have hmid : CDateTime.Valid ⟨t.year, t.month, t.day, 0, 0, 0⟩ :=
        mk_valid _ _ _ _ _ _ hvm1 hvm2 hvd1 hvd2 (by norm_num) (by norm_num) (by norm_num)
      obtain ⟨hav, hadn, hah, hami, has⟩ := addDay_spec _ hmid
      have hu2 : u = CDateTime.addDay ⟨t.year, t.month, t.day, 0, 0, 0⟩ := by
        injection h with h3
        exact h3.symm
      subst hu2
      refine ⟨hav, ?_⟩
      apply toSecs_lt_of_dayNumber_lt _ _ hv
      rw [hadn, dayNumber_mk]
      show dayNum t.year t.month t.day < dayNum t.year t.month t.day + 1
      omega
    · rw [if_neg h1] at h
      cases h

theorem checkHour_jump (c : CronSchedule) (t u : CDateTime) (hv : t.Valid)
    (h : checkHour c t = .jump u) : u.Valid ∧ t.toSecs < u.toSecs := by
  obtain ⟨hvm1, hvm2, hvd1, hvd2, hvh, hvmi, hvs⟩ := hv
  unfold checkHour at h
  cases hch : c.hour with
  | none => rw [hch] at h; cases h
  | some H =>
    rw [hch] at h
    dsimp only at h
    rcases Nat.lt_trichotomy t.hour H with h1 | h1 | h1
    · rw [if_pos h1, chainHour] at h
      by_cases h3 : H < 24
      · rw [if_pos h3] at h
        have hu := stepBind_jump h
        have hu2 : u = ⟨t.year, t.month, t.day, H, 0, 0⟩ := by
          injection hu with hu3
          exact hu3.symm
        subst hu2
        refine ⟨mk_valid _ _ _ _ _ _ hvm1 hvm2 hvd1 hvd2 h3
          (by norm_num) (by norm_num), ?_⟩
        rw [toSecs_eq t, toSecs_mk]
        omega
      · rw [if_neg h3] at h
        cases h
    · rw [if_neg (by omega), if_neg (by omega)] at h
      cases h
    · rw [if_neg (by omega), if_pos h1, chainDay] at h
      by_cases h3 : 1 ≤ t.day + 1 ∧ t.day + 1 ≤ daysInMonth t.year t.month
      · rw [if_pos h3] at h
        have hu := stepBind_jump h
        have hu2 : u = ⟨t.year, t.month, t.day + 1, 0, 0, 0⟩ := by
          injection hu with hu3
          exact hu3.symm
        subst hu2
        refine ⟨mk_valid _ _ _ _ _ _ hvm1 hvm2 (by omega) h3.2
          (by norm_num) (by norm_num) (by norm_num), ?_⟩
        apply toSecs_lt_of_dayNumber_lt _ _ ⟨hvm1, hvm2, hvd1, hvd2, hvh, hvmi, hvs⟩
        show dayNum t.year t.month t.day < dayNum t.year t.month (t.day + 1)
        exact dayNum_day_lt _ _ _ _ (by omega)
      · rw [if_neg h3] at h
        cases h

theorem checkMinute_jump (c : CronSchedule) (t u : CDateTime) (hv : t.Valid)
    (h : checkMinute c t = .jump u) : u.Valid ∧ t.toSecs < u.toSecs := by
  obtain ⟨hvm1, hvm2, hvd1, hvd2, hvh, hvmi, hvs⟩ := hv
  unfold checkMinute at h
  cases hcm : c.minute with
  | none => rw [hcm] at h; cases h
  | some M =>
    rw [hcm] at h
    dsimp only at h
    rcases Nat.lt_trichotomy t.minute M with h1 | h1 | h1
    · rw [if_pos h1, chainMinute] at h
      by_cases h3 : M < 60
      · rw [if_pos h3] at h
        have hu := stepBind_jump h
        have hu2 : u = ⟨t.year, t.month, t.day, t.hour, M, 0⟩ := by
          injection hu with hu3
          exact hu3.symm
        subst hu2
        refine ⟨mk_valid _ _ _ _ _ _ hvm1 hvm2 hvd1 hvd2 hvh h3 (by norm_num), ?_⟩
        rw [toSecs_eq t, toSecs_mk]
        omega
      · rw [if_neg h3] at h
        cases h
    · rw [if_neg (by omega), if_neg (by omega)] at h
      cases h
    · rw [if_neg (by omega), if_pos h1, chainHour] at h
      by_cases h3 : t.hour + 1 < 24
      · rw [if_pos h3] at h
        have hu := stepBind_jump h
        have hu2 : u = ⟨t.year, t.month, t.day, t.hour + 1, 0, 0⟩ := by
          injection hu with hu3
          exact hu3.symm
        subst hu2
        refine ⟨mk_valid _ _ _ _ _ _ hvm1 hvm2 hvd1 hvd2 h3
          (by norm_num) (by norm_num), ?_⟩
        rw [toSecs_eq t, toSecs_mk]
        omega
      · rw [if_neg h3] at h
        cases h

/-! ### The cron search never moves backwards -/

theorem cronLoop_ok (c : CronSchedule) :
    ∀ (fuel : ℕ) (t r : CDateTime), t.Valid → cronLoop c fuel t = .ok r →
      r.Valid ∧ t.toSecs ≤ r.toSecs := by
  intro fuel
  induction fuel with
  | zero =>
    intro t r _ h
    cases h
  | succ f ih =>
    intro t r hv h
    unfold cronLoop at h
    cases hm : checkMonth c t with
    | err => rw [hm] at h; cases h
    | jump t2 =>
      rw [hm] at h
      obtain ⟨hv2, hlt⟩ := checkMonth_jump c t t2 hv hm
      obtain ⟨hrv, hle⟩ := ih t2 r hv2 h
      exact ⟨hrv, by omega⟩
    | pass =>
    rw [hm] at h
    dsimp only at h
    cases hd : checkDay c t with
    | err => rw [hd] at h; cases h
    | jump t2 =>
      rw [hd] at h
      obtain ⟨hv2, hlt⟩ := checkDay_jump c t t2 hv hd
      obtain ⟨hrv, hle⟩ := ih t2 r hv2 h
      exact ⟨hrv, by omega⟩
    | pass =>
    rw [hd] at h
    dsimp only at h
    cases hw : checkWeekday c t with
    | err => rw [hw] at h; cases h
    | jump t2 =>
      rw [hw] at h
      obtain ⟨hv2, hlt⟩ := checkWeekday_jump c t t2 hv hw
      obtain ⟨hrv, hle⟩ := ih t2 r hv2 h
      exact ⟨hrv, by omega⟩
    | pass =>
    rw [hw] at h
    dsimp only at h
    cases hh : checkHour c t with
    | err => rw [hh] at h; cases h
    | jump t2 =>
      rw [hh] at h
      obtain ⟨hv2, hlt⟩ := checkHour_jump c t t2 hv hh
      obtain ⟨hrv, hle⟩ := ih t2 r hv2 h
      exact ⟨hrv, by omega⟩
    | pass =>
    rw [hh] at h
    dsimp only at h
    cases hmi : checkMinute c t with
    | err => rw [hmi] at h; cases h
    | jump t2 =>
      rw [hmi] at h
      obtain ⟨hv2, hlt⟩ := checkMinute_jump c t t2 hv hmi
      obtain ⟨hrv, hle⟩ := ih t2 r hv2 h
      exact ⟨hrv, by omega⟩
    | pass =>
    rw [hmi] at h
    dsimp only at h
    have hr : t = r := by injection h
    subst hr
    exact ⟨hv, le_refl _⟩

theorem foldr_ominTime_strict (after : ℤ) :
    ∀ (l : List (Option ℤ)) (t : ℤ),
      (∀ o ∈ l, ∀ v : ℤ, o = some v → after < v) →
      l.foldr ominTime none = some t → after < t := by
  intro l
  induction l with
  | nil => intro t _ h; cases h
  | cons a l ih =>
    intro t hall h
    simp only [List.foldr_cons] at h
    cases ha : a with
    | none =>
      rw [ha] at h
      exact ih t (fun o ho v hv => hall o (List.mem_cons_of_mem a ho) v hv) h
    | some x =>
      have hx : after < x := hall a (List.mem_cons_self a l) x ha
      rw [ha] at h
      cases hr : l.foldr ominTime none with
      | none =>
        rw [hr] at h
        unfold ominTime at h
        injection h with h2
        omega
      | some y =>
        have hy : after < y := ih y (fun o ho v hv => hall o (List.mem_cons_of_mem a ho) v hv) hr
        rw [hr] at h
        unfold ominTime at h
        injection h with h2
        rw [← h2]
        exact lt_min hx hy

/-- C1 (amended): every `Some`/`ok` answer of `next_occurrence` is strictly
after the queried instant for the one-time, cron and combined schedules
(the latter whenever its components have the property); for the interval
schedule this holds whenever the elapsed time since the start is below
`2^24` seconds (beyond that the `f32` rounding of C2's code bug can return
`after` itself); for the random-interval schedule it holds for every sample
when no anchor was set, while a `with_start_time` anchor in the past can
yield answers at or before `after`. -/
theorem next_occurrence_strictly_future :
    (∀ (s : OneTimeSchedule) (after t : ℤ),
        s.next_occurrence after = some t → after < t) ∧
    (∀ (s : IntervalSchedule) (after t : ℤ), 0 < s.interval →
        after - s.start_time < 2 ^ 24 →
        s.next_occurrence after = some t → after < t) ∧
    (∀ (s : RandomIntervalSchedule) (sample : ℕ) (after t : ℤ),
        s.last_time = none → 0 < s.min_interval → s.min_interval ≤ sample →
        s.next_occurrence sample after = some t → after < t) ∧
    (∀ (c : CronSchedule) (fuel : ℕ) (after r : CDateTime), after.Valid →
        c.next_occurrence fuel after = .ok r → after.toSecs < r.toSecs) ∧
    (∀ (c : CombinedSchedule) (after t : ℤ),
        (∀ sched ∈ c.schedules, ∀ v : ℤ, sched after = some v → after < v) →
        c.next_occurrence after = some t → after < t) := by
  refine ⟨?_, ?_, ?_, ?_, ?_⟩
  · intro s after t h
    unfold OneTimeSchedule.next_occurrence at h
    split_ifs at h with h1
    · injection h with h2
      omega
  · intro s after t hI hlt h
    unfold IntervalSchedule.next_occurrence at h
    split_ifs at h with h1
    · injection h with h2
      omega
    · have helap : ((after - s.start_time).toNat : ℤ) = after - s.start_time := by omega
      have helt : (after - s.start_time).toNat < 2 ^ 24 := by omega
      have hstrict := intervals_passed_strict (after - s.start_time).toNat s.interval hI helt
      cases he : s.end_time with
      | none =>
        rw [he] at h
        injection h with h2
        rw [← h2]
        omega
      | some e =>
        rw [he] at h
        dsimp only at h
        split_ifs at h with h3
        injection h with h2
        rw [← h2]
        omega
  · intro s sample after t hanchor hmin hsample h
    unfold RandomIntervalSchedule.next_occurrence at h
    rw [hanchor] at h
    dsimp only [Option.getD] at h
    cases he : s.end_time with
    | none =>
      rw [he] at h
      injection h with h2
      omega
    | some e =>
      rw [he] at h
      dsimp only at h
      split_ifs at h with h3
      injection h with h2
      omega
  · intro c fuel after r hv h
    unfold CronSchedule.next_occurrence at h
    obtain ⟨hsv, hss⟩ := succSec_spec after hv
    obtain ⟨hrv, hle⟩ := cronLoop_ok c fuel after.succSec r hsv h
    omega
  · intro c after t hall h
    unfold CombinedSchedule.next_occurrence at h
    rw [combined_foldl_eq] at h
    have h2 : (c.schedules.map fun sched => sched after).foldr ominTime none = some t := h
    apply foldr_ominTime_strict after (c.schedules.map fun sched => sched after) t
    · intro o ho v hv
      obtain ⟨sched, hmem, rfl⟩ := List.mem_map.mp ho
      exact hall sched hmem v hv
    · exact h2

/-- C1 (counterexample): a legitimately constructed random-interval schedule
anchored at time 0 and queried at time 100 returns `some 5` for the in-range
sample 5, a timestamp not strictly after the query. -/
theorem random_anchor_not_future :
    RandomIntervalSchedule.new 1 10 = .ok ⟨1, 10, none, none⟩ ∧
    (RandomIntervalSchedule.with_start_time ⟨1, 10, none, none⟩ 0).next_occurrence 5 100
      = some 5 ∧
    ¬ (100 : ℤ) < 5 ∧ 1 ≤ 5 ∧ 5 ≤ 10 := by
  refine ⟨rfl, rfl, by decide, by decide, by decide⟩

/-- C4 (counterexample): a valid constraint set (minute = 0, accepted by the
builder) and a valid query timestamp on which `next_occurrence` panics: at
23:30:00 the minute-greater branch calls `with_hour(24)`, which chrono
rejects, and the `.unwrap()` fails instead of rolling into the next day. -/
theorem cron_overflow_panics :
    CronSchedule.new.set_minute 0 = .ok { minute := some 0 } ∧
    (CDateTime.mk 2023 1 1 23 30 0).Valid ∧
    CronSchedule.next_occurrence { minute := some 0 } 5 ⟨2023, 1, 1, 23, 30, 0⟩ = .err := by
  refine ⟨rfl, by decide, by decide⟩

/-- C4 (amended): the calendar primitive does not normalize the cron loop's
roll-overs: each field setter used by a roll returns `none` exactly when the
stepped value does not form a valid date-time (hour 24, day past the month
length, month 13 or a month too short for the current day, February 29 moved
to a non-leap year), and the `.unwrap()` panics there, as the minute-only
schedule of `cron_overflow_panics` shows at 23:30:00. -/
theorem cron_rolls_not_normalized :
    (∀ t : CDateTime, t.Valid → (t.with_hour (t.hour + 1) = none ↔ 23 ≤ t.hour)) ∧
    (∀ t : CDateTime, t.Valid →
      (t.with_day (t.day + 1) = none ↔ t.day = daysInMonth t.year t.month)) ∧
    (∀ t : CDateTime, t.Valid →
      (t.with_month (t.month + 1) = none ↔
        t.month = 12 ∨ daysInMonth t.year (t.month + 1) < t.day)) ∧
    (∀ t : CDateTime, t.Valid →
      (t.with_year (t.year + 1) = none ↔ daysInMonth (t.year + 1) t.month < t.day)) := by
  refine ⟨?_, ?_, ?_, ?_⟩
  · intro t hv
    obtain ⟨h1, h2, h3, h4, h5, h6, h7⟩ := hv
    unfold CDateTime.with_hour
    split_ifs with hc <;> simp <;> omega
  · intro t hv
    obtain ⟨h1, h2, h3, h4, h5, h6, h7⟩ := hv
    unfold CDateTime.with_day
    split_ifs with hc <;> simp <;> omega
  · intro t hv
    obtain ⟨h1, h2, h3, h4, h5, h6, h7⟩ := hv
    unfold CDateTime.with_month
    split_ifs with hc <;> simp <;> omega
  · intro t hv
    obtain ⟨h1, h2, h3, h4, h5, h6, h7⟩ := hv
    unfold CDateTime.with_year
    split_ifs with hc <;> simp <;> omega

/-! ### The hour+minute cron schedule -/

theorem cronLoop_hm_step (H M f : ℕ) (t : CDateTime) :
    cronLoop { hour := some H, minute := some M } (f + 1) t =
      match checkHour { hour := some H, minute := some M } t with
      | .err => .err
      | .jump u => cronLoop { hour := some H, minute := some M } f u
      | .pass =>
        match checkMinute { hour := some H, minute := some M } t with
        | .err => .err
        | .jump u => cronLoop { hour := some H, minute := some M } f u
        | .pass => .ok t := rfl

theorem checkHour_hm_lt (H M : ℕ) (t : CDateTime) (h1 : t.hour < H) (hH : H < 24) :
    checkHour { hour := some H, minute := some M } t
      = .jump ⟨t.year, t.month, t.day, H, 0, 0⟩ := by
  unfold checkHour
  dsimp only
  rw [if_pos h1, chainHour, if_pos hH]
  rfl

theorem checkHour_hm_eq (H M : ℕ) (t : CDateTime) (h1 : t.hour = H) :
    checkHour { hour := some H, minute := some M } t = .pass := by
  unfold checkHour
  dsimp only
  rw [if_neg (by omega), if_neg (by omega)]

theorem checkHour_hm_gt (H M : ℕ) (t : CDateTime) (h1 : H < t.hour)
    (hd : t.day < daysInMonth t.year t.month) :
    checkHour { hour := some H, minute := some M } t
      = .jump ⟨t.year, t.month, t.day + 1, 0, 0, 0⟩ := by
  unfold checkHour
  dsimp only
  rw [if_neg (by omega), if_pos h1, chainDay, if_pos (by omega)]
  rfl

theorem checkMinute_hm_lt (H M : ℕ) (t : CDateTime) (h1 : t.minute < M) (hM : M < 60) :
    checkMinute { hour := some H, minute := some M } t
      = .jump ⟨t.year, t.month, t.day, t.hour, M, 0⟩ := by
  unfold checkMinute
  dsimp only
  rw [if_pos h1, chainMinute, if_pos hM]
  rfl

theorem checkMinute_hm_eq (H M : ℕ) (t : CDateTime) (h1 : t.minute = M) :
    checkMinute { hour := some H, minute := some M } t = .pass := by
  unfold checkMinute
  dsimp only
  rw [if_neg (by omega), if_neg (by omega)]

theorem checkMinute_hm_gt (H M : ℕ) (t : CDateTime) (h1 : M < t.minute)
    (hH : t.hour + 1 < 24) :
    checkMinute { hour := some H, minute := some M } t
      = .jump ⟨t.year, t.month, t.day, t.hour + 1, 0, 0⟩ := by
  unfold checkMinute
  dsimp only
  rw [if_neg (by omega), if_pos h1, chainHour, if_pos hH]
  rfl

theorem cronLoop_hm_from_hour (H M : ℕ) (hM : M < 60) (f : ℕ) (y : ℤ) (mo D : ℕ) :
    cronLoop { hour := some H, minute := some M } (f + 2) ⟨y, mo, D, H, 0, 0⟩ =
      .ok ⟨y, mo, D, H, M, 0⟩ := by
  rcases Nat.eq_zero_or_pos M with hM0 | hM0
  · subst hM0
    rw [cronLoop_hm_step, checkHour_hm_eq H 0 _ rfl, checkMinute_hm_eq H 0 _ rfl]
  · rw [cronLoop_hm_step, checkHour_hm_eq H M _ rfl, checkMinute_hm_lt H M _ (by dsimp only; omega) hM]
    dsimp only
    rw [cronLoop_hm_step, checkHour_hm_eq H M _ rfl, checkMinute_hm_eq H M _ rfl]

theorem cronLoop_hm_from_midnight (H M : ℕ) (hH : H < 24) (hM : M < 60)
    (f : ℕ) (y : ℤ) (mo D : ℕ) :
    cronLoop { hour := some H, minute := some M } (f + 3) ⟨y, mo, D, 0, 0, 0⟩ =
      .ok ⟨y, mo, D, H, M, 0⟩ := by
  rcases Nat.eq_zero_or_pos H with hH0 | hH0
  · subst hH0
    have := cronLoop_hm_from_hour 0 M hM (f + 1) y mo D
    simpa using this
  · rw [cronLoop_hm_step, checkHour_hm_lt H M _ (by dsimp only; omega) hH]
    dsimp only
    exact cronLoop_hm_from_hour H M hM f y mo D

theorem hm_target_same_day (H M : ℕ) (hH : H < 24) (hM : M < 60)
    (after c1 : CDateTime) (hv1 : c1.Valid)
    (hss : c1.toSecs = after.toSecs + 1)
    (htod : (c1.hour : ℤ) * 3600 + c1.minute * 60 + c1.second ≤ (H : ℤ) * 3600 + M * 60) :
    (CDateTime.mk c1.year c1.month c1.day H M 0).Valid ∧
    after.toSecs < (CDateTime.mk c1.year c1.month c1.day H M 0).toSecs ∧
    (CDateTime.mk c1.year c1.month c1.day H M 0).toSecs ≤ after.toSecs + 86400 ∧
    ∀ u : CDateTime, u.Valid → u.hour = H → u.minute = M → u.second = 0 →
      after.toSecs < u.toSecs →
      (CDateTime.mk c1.year c1.month c1.day H M 0).toSecs ≤ u.toSecs := by
  obtain ⟨hm1, hm2, hd1, hd2, hh, hmi, hs⟩ := hv1
  have hc1 := toSecs_eq c1
  have hr := toSecs_mk c1.year c1.month c1.day H M 0
  refine ⟨mk_valid _ _ _ _ _ _ hm1 hm2 hd1 hd2 hH hM (by norm_num),
    by omega, by omega, ?_⟩
  intro u huv huh hum hus hgt
  obtain ⟨_, _, _, _, _, _, _⟩ := huv
  have hu := toSecs_eq u
  rw [huh, hum, hus] at hu
  omega

theorem hm_target_next_day (H M : ℕ) (hH : H < 24) (hM : M < 60)
    (after c1 : CDateTime) (hv1 : c1.Valid)
    (hss : c1.toSecs = after.toSecs + 1)
    (hday : c1.day < daysInMonth c1.year c1.month)
    (htod : (H : ℤ) * 3600 + M * 60 + 60 ≤ (c1.hour : ℤ) * 3600 + c1.minute * 60 + c1.second) :
    (CDateTime.mk c1.year c1.month (c1.day + 1) H M 0).Valid ∧
    after.toSecs < (CDateTime.mk c1.year c1.month (c1.day + 1) H M 0).toSecs ∧
    (CDateTime.mk c1.year c1.month (c1.day + 1) H M 0).toSecs ≤ after.toSecs + 86400 ∧
    ∀ u : CDateTime, u.Valid → u.hour = H → u.minute = M → u.second = 0 →
      after.toSecs < u.toSecs →
      (CDateTime.mk c1.year c1.month (c1.day + 1) H M 0).toSecs ≤ u.toSecs := by
  obtain ⟨hm1, hm2, hd1, hd2, hh, hmi, hs⟩ := hv1
  have hc1 := toSecs_eq c1
  have hr := toSecs_mk c1.year c1.month (c1.day + 1) H M 0
  have hdn := dayNum_succ_day c1.year c1.month c1.day
  refine ⟨mk_valid _ _ _ _ _ _ hm1 hm2 (by omega) (by omega) hH hM (by norm_num),
    by omega, by omega, ?_⟩
  intro u huv huh hum hus hgt
  obtain ⟨_, _, _, _, _, _, _⟩ := huv
  have hu := toSecs_eq u
  rw [huh, hum, hus] at hu
  omega

/-- C3 (amended): for a cron schedule with only hour = H and minute = M set,
`next_occurrence(after)`: (1) when `after + 1s` already has hour H and minute
M, the code returns `after + 1s` itself, whose second field is in general not
zero; (2) otherwise, provided the required roll-over does not panic (no
minute roll at hour 23, and no day roll on the last day of a month), the
result is exactly the smallest valid timestamp with hour H, minute M,
second 0 that is strictly after `after`, and it is at most 24 hours away. -/
theorem cron_hour_minute_spec :
    (∀ (H M : ℕ) (after : CDateTime), H < 24 → M < 60 → after.Valid →
      after.succSec.hour = H → after.succSec.minute = M →
      CronSchedule.next_occurrence { hour := some H, minute := some M } 6 after
        = .ok after.succSec) ∧
    (∀ (H M : ℕ) (after : CDateTime), H < 24 → M < 60 → after.Valid →
      ¬ (after.succSec.hour = H ∧ after.succSec.minute = M) →
      ¬ (after.succSec.hour = H ∧ M < after.succSec.minute ∧ H = 23) →
      ((H < after.succSec.hour ∨ (after.succSec.hour = H ∧ M < after.succSec.minute)) →
        after.succSec.day < daysInMonth after.succSec.year after.succSec.month) →
      ∃ r : CDateTime,
        CronSchedule.next_occurrence { hour := some H, minute := some M } 6 after
          = .ok r ∧
        r.Valid ∧ r.hour = H ∧ r.minute = M ∧ r.second = 0 ∧
        after.toSecs < r.toSecs ∧ r.toSecs ≤ after.toSecs + 86400 ∧
        (∀ u : CDateTime, u.Valid → u.hour = H → u.minute = M → u.second = 0 →
          after.toSecs < u.toSecs → r.toSecs ≤ u.toSecs)) := by
  constructor
  · intro H M after hH hM hv hh hm
    unfold CronSchedule.next_occurrence
    show cronLoop { hour := some H, minute := some M } (5 + 1) after.succSec = _
    rw [cronLoop_hm_step, checkHour_hm_eq H M _ hh, checkMinute_hm_eq H M _ hm]
  · intro H M after hH hM hv hns hp23 hpday
    obtain ⟨hv1, hss⟩ := succSec_spec after hv
    have hvb := hv1
    obtain ⟨hbm1, hbm2, hbd1, hbd2, hbh, hbmi, hbs⟩ := hvb
    unfold CronSchedule.next_occurrence
    rcases Nat.lt_trichotomy after.succSec.hour H with hlt | heq | hgt
    · -- the hour is still ahead today: same-day result
      have hstep1 : cronLoop { hour := some H, minute := some M } (5 + 1) after.succSec
          = cronLoop { hour := some H, minute := some M } 5
              ⟨after.succSec.year, after.succSec.month, after.succSec.day, H, 0, 0⟩ := by
        rw [cronLoop_hm_step, checkHour_hm_lt H M _ hlt hH]
      have hloop : cronLoop { hour := some H, minute := some M } 6 after.succSec
          = .ok ⟨after.succSec.year, after.succSec.month, after.succSec.day, H, M, 0⟩ := by
        rw [show cronLoop { hour := some H, minute := some M } 6 after.succSec
            = cronLoop { hour := some H, minute := some M } 5
                ⟨after.succSec.year, after.succSec.month, after.succSec.day, H, 0, 0⟩
          from hstep1]
        exact cronLoop_hm_from_hour H M hM 3 _ _ _
      obtain ⟨hrv, hgt2, hle2, hmin2⟩ :=
        hm_target_same_day H M hH hM after after.succSec hv1 hss (by omega)
      exact ⟨_, hloop, hrv, rfl, rfl, rfl, hgt2, hle2, hmin2⟩
    · rcases Nat.lt_trichotomy after.succSec.minute M with hmlt | hmeq | hmgt
      · -- same hour, minute still ahead: same-day result
        have hloop : cronLoop { hour := some H, minute := some M } (4 + 1 + 1) after.succSec
            = .ok ⟨after.succSec.year, after.succSec.month, after.succSec.day, H, M, 0⟩ := by
          rw [cronLoop_hm_step, checkHour_hm_eq H M _ heq,
            checkMinute_hm_lt H M _ hmlt hM]
          dsimp only
          rw [heq]
          show cronLoop { hour := some H, minute := some M } (4 + 1)
              ⟨after.succSec.year, after.succSec.month, after.succSec.day, H, M, 0⟩ = _
          rw [cronLoop_hm_step, checkHour_hm_eq H M _ rfl, checkMinute_hm_eq H M _ rfl]
        obtain ⟨hrv, hgt2, hle2, hmin2⟩ :=
          hm_target_same_day H M hH hM after after.succSec hv1 hss (by omega)
        exact ⟨_, hloop, hrv, rfl, rfl, rfl, hgt2, hle2, hmin2⟩
      · exact absurd ⟨heq, hmeq⟩ hns
      · -- same hour, minute already passed: roll to the next day
        have h23 : H < 23 := by
          rcases Nat.lt_or_ge H 23 with h | h
          · exact h
          · exact absurd ⟨heq, hmgt, by omega⟩ hp23
        have hday : after.succSec.day
            < daysInMonth after.succSec.year after.succSec.month :=
          hpday (Or.inr ⟨heq, hmgt⟩)
        have hstep1 : cronLoop { hour := some H, minute := some M } (5 + 1) after.succSec
            = cronLoop { hour := some H, minute := some M } 5
                ⟨after.succSec.year, after.succSec.month, after.succSec.day,
                  after.succSec.hour + 1, 0, 0⟩ := by
          rw [cronLoop_hm_step, checkHour_hm_eq H M _ heq,
            checkMinute_hm_gt H M _ hmgt (by omega)]
        have hstep2 : cronLoop { hour := some H, minute := some M } (4 + 1)
              ⟨after.succSec.year, after.succSec.month, after.succSec.day,
                after.succSec.hour + 1, 0, 0⟩
            = cronLoop { hour := some H, minute := some M } 4
                ⟨after.succSec.year, after.succSec.month, after.succSec.day + 1,
                  0, 0, 0⟩ := by
          rw [cronLoop_hm_step,
            checkHour_hm_gt H M _ (by dsimp only; omega) (by dsimp only; exact hday)]
        have hloop : cronLoop { hour := some H, minute := some M } 6 after.succSec
            = .ok ⟨after.succSec.year, after.succSec.month, after.succSec.day + 1,
                H, M, 0⟩ := by
          rw [show cronLoop { hour := some H, minute := some M } 6 after.succSec
              = cronLoop { hour := some H, minute := some M } 5
                  ⟨after.succSec.year, after.succSec.month, after.succSec.day,
                    after.succSec.hour + 1, 0, 0⟩ from hstep1]
          rw [show cronLoop { hour := some H, minute := some M } 5
                ⟨after.succSec.year, after.succSec.month, after.succSec.day,
                  after.succSec.hour + 1, 0, 0⟩
              = cronLoop { hour := some H, minute := some M } 4
                  ⟨after.succSec.year, after.succSec.month, after.succSec.day + 1,
                    0, 0, 0⟩ from hstep2]
          exact cronLoop_hm_from_midnight H M hH hM 1 _ _ _
        obtain ⟨hrv, hgt2, hle2, hmin2⟩ :=
          hm_target_next_day H M hH hM after after.succSec hv1 hss hday (by omega)
        exact ⟨_, hloop, hrv, rfl, rfl, rfl, hgt2, hle2, hmin2⟩
    · -- the hour already passed today: roll to the next day
      have hday : after.succSec.day
          < daysInMonth after.succSec.year after.succSec.month :=
        hpday (Or.inl hgt)
      have hstep1 : cronLoop { hour := some H, minute := some M } (5 + 1) after.succSec
          = cronLoop { hour := some H, minute := some M } 5
              ⟨after.succSec.year, after.succSec.month, after.succSec.day + 1,
                0, 0, 0⟩ := by
        rw [cronLoop_hm_step, checkHour_hm_gt H M _ hgt hday]
      have hloop : cronLoop { hour := some H, minute := some M } 6 after.succSec
          = .ok ⟨after.succSec.year, after.succSec.month, after.succSec.day + 1,
              H, M, 0⟩ := by
        rw [show cronLoop { hour := some H, minute := some M } 6 after.succSec
            = cronLoop { hour := some H, minute := some M } 5
                ⟨after.succSec.year, after.succSec.month, after.succSec.day + 1,
                  0, 0, 0⟩ from hstep1]
        exact cronLoop_hm_from_midnight H M hH hM 2 _ _ _
      obtain ⟨hrv, hgt2, hle2, hmin2⟩ :=
        hm_target_next_day H M hH hM after after.succSec hv1 hss hday (by omega)
      exact ⟨_, hloop, hrv, rfl, rfl, rfl, hgt2, hle2, hmin2⟩

/-- C3 (counterexample): with hour = 12 and minute = 30 set, a query at
12:30:05 returns 12:30:06 — hour and minute match, but the second field is 6,
not 0, and the returned instant is not of the form H:M:00. -/
theorem cron_hm_second_not_reset :
    CronSchedule.next_occurrence { hour := some 12, minute := some 30 } 6
      ⟨2023, 1, 1, 12, 30, 5⟩ = .ok ⟨2023, 1, 1, 12, 30, 6⟩ ∧
    (CDateTime.mk 2023 1 1 12 30 6).second ≠ 0 ∧
    (CDateTime.mk 2023 1 1 12 30 5).Valid := by
  refine ⟨by decide, by decide, by decide⟩

/-- Witness for the amended C3 at a concrete input: hour 12, minute 0,
queried at 2023-01-01 08:00:00. -/
theorem cron_hour_minute_spec_witness :
    ∃ r : CDateTime,
      CronSchedule.next_occurrence { hour := some 12, minute := some 0 } 6
        ⟨2023, 1, 1, 8, 0, 0⟩ = .ok r ∧
      r.Valid ∧ r.hour = 12 ∧ r.minute = 0 ∧ r.second = 0 ∧
      (CDateTime.mk 2023 1 1 8 0 0).toSecs < r.toSecs ∧
      r.toSecs ≤ (CDateTime.mk 2023 1 1 8 0 0).toSecs + 86400 ∧
      (∀ u : CDateTime, u.Valid → u.hour = 12 → u.minute = 0 → u.second = 0 →
        (CDateTime.mk 2023 1 1 8 0 0).toSecs < u.toSecs → r.toSecs ≤ u.toSecs) :=
  cron_hour_minute_spec.2 12 0 ⟨2023, 1, 1, 8, 0, 0⟩ (by norm_num) (by norm_num)
    (by decide) (by decide) (by decide) (by decide)
